import Mathlib

/-!
Verification of the aggregation, formatting and display logic of
`aggregate_expenses.py` (house_expenses_calculator).

Shallow embedding conventions:
* spreadsheet rows are records with a `buisness_name` (sic, the source's
  spelling) and an optional numeric `total_expense`; a missing/NaN cell is
  `Option.none`;
* numeric amounts are exact rationals (`ℚ`); Python's float formatting
  `f"{v:,.0f}"` rounds the printed decimal value half-to-even, modelled by
  `rhe` below;
* pandas `groupby(key)[val].sum()` (default `sort=True`) yields one row per
  distinct key, keys in ascending lexicographic order, summing the group
  (NaN summed as 0, which is vacuous after the dropna filter);
* pandas `sort_values(..., ascending=False)` with the default kind is
  modelled as a stable descending sort (`List.insertionSort`).  pandas
  implements `ascending=False` by reversing, argsorting ascending, and
  reversing the indexer again, which for a stable argsort preserves the
  input's tie order; NumPy's default argsort is its stable insertion-sort
  fallback for arrays of at most 16 elements and an unstable introsort
  partition above that, so this model is exact for aggregations of at
  most 16 rows (all concrete inputs here) and ordering statements are
  asserted only on that domain — sums and membership are
  permutation-invariant and unaffected;
* pandas `merge(..., on=k, how='left')` emits one output row per matching
  right-table row, and the left row itself (with a NaN category, later
  `fillna`'d to "Other") when there is no match; left row order is kept;
* matplotlib / window display is reduced to the data handed to it:
  `plot_fraction_pie` returns either a "skipped" outcome carrying the
  logged message or the wedge fractions it would draw.
-/

set_option maxRecDepth 100000

namespace HouseExpenses

/-! ## Characters, whitespace splitting, Hebrew-token detection -/

/-- Whitespace as recognised by Python's `str.split()` (restricted to the
ASCII whitespace characters, the only ones relevant here). -/
def isWs (c : Char) : Bool :=
  c == ' ' || c == '\t' || c == '\n' || c == '\r'

/-- Membership in the regex class `[֐-׿]` of `is_all_hebrew`. -/
def isHebrewChar (c : Char) : Bool :=
  decide (0x0590 ≤ c.toNat) && decide (c.toNat ≤ 0x05FF)

/-- Token-level body of `is_all_hebrew` (source lines 9-14): the regex
`^[֐-׿]+$` matches (token nonempty and every character Hebrew),
or the token contains a double quote, a hyphen, or a slash. -/
def hebToken (t : List Char) : Bool :=
  (!t.isEmpty && t.all isHebrewChar) || t.contains '\"' || t.contains '-' || t.contains '/'

/-- `is_all_hebrew` from the source, on a string token. -/
def is_all_hebrew (w : String) : Bool :=
  hebToken w.data

/-- Worker for whitespace splitting: `acc` holds the characters of the
current token, most recent first. -/
def splitWsAux : List Char → List Char → List (List Char)
  | [], acc => if acc.isEmpty then [] else [acc.reverse]
  | c :: rest, acc =>
    if isWs c then
      if acc.isEmpty then splitWsAux rest [] else acc.reverse :: splitWsAux rest []
    else splitWsAux rest (c :: acc)

/-- Python `line.split()`: split on runs of whitespace, no empty tokens. -/
def splitWsChars (l : List Char) : List (List Char) :=
  splitWsAux l []

/-- Python `" ".join(tokens)`. -/
def joinChars : List (List Char) → List Char
  | [] => []
  | [t] => t
  | t :: ts => t ++ ' ' :: joinChars ts

/-- The per-token transformation of `reverse_line_hebrew_words_and_order`:
reverse the letters of a token `is_all_hebrew` accepts. -/
def hebMap (t : List Char) : List Char :=
  if hebToken t then t.reverse else t

/-- `reverse_line_hebrew_words_and_order` (source lines 16-39): split the
line on whitespace, reverse the token order, reverse the letters of each
token classified by `is_all_hebrew`, join with single spaces. -/
def reverse_line_hebrew_words_and_order (line : String) : String :=
  String.mk (joinChars (((splitWsChars line.data).reverse).map hebMap))

/-! ## Numeric rendering (Python `f"{v:,.0f}"` and `f"{v:.0f}"`) -/

/-- Round half to even, the tie-breaking Python uses when printing a value
with `.0f` (on our exact-rational model of the numeric values). -/
def rhe (q : ℚ) : ℤ :=
  if q - ⌊q⌋ < 1 / 2 then ⌊q⌋
  else if 1 / 2 < q - ⌊q⌋ then ⌊q⌋ + 1
  else if ⌊q⌋ % 2 = 0 then ⌊q⌋ else ⌊q⌋ + 1

/-- Decimal digit character (`d` is a digit value 0-9). -/
def natDigitChar (d : Nat) : Char :=
  Char.ofNat (48 + d)

/-- Worker for `natDigits`; `fuel` bounds the recursion and any
`fuel > n` is enough. -/
def natDigitsGo : Nat → Nat → List Char
  | 0, _ => []
  | fuel + 1, n =>
    if n < 10 then [natDigitChar n]
    else natDigitsGo fuel (n / 10) ++ [natDigitChar (n % 10)]

/-- Decimal digit characters of a natural number, most significant first. -/
def natDigits (n : Nat) : List Char :=
  natDigitsGo (n + 1) n

/-- Worker for `group3Rev`; `fuel ≥ l.length` is enough. -/
def group3Go : Nat → List Char → List Char
  | 0, l => l
  | fuel + 1, l =>
    if l.length ≤ 3 then l
    else l.take 3 ++ ',' :: group3Go fuel (l.drop 3)

/-- Insert a comma after every third character, counting from the head of a
least-significant-first digit list. -/
def group3Rev (l : List Char) : List Char :=
  group3Go l.length l

/-- Comma-grouped decimal rendering of a natural number, as in
`f"{n:,}"`. -/
def withCommas (n : Nat) : List Char :=
  (group3Rev (natDigits n).reverse).reverse

/-- Characters printed by Python's `f"{v:,.0f}"`: sign of the value, then
the comma-grouped digits of the absolute value rounded half-to-even.
(Python prints `-0` for a negative value rounding to zero.) -/
def commaFmtChars (v : ℚ) : List Char :=
  (if v < 0 then ['-'] else []) ++ withCommas (rhe |v|).toNat

/-- `format_int_no_decimals` (source lines 41-51). -/
def format_int_no_decimals (v : ℚ) : String :=
  if 0 < v ∧ v < 1 then "<1"
  else String.mk (commaFmtChars v)

/-- Characters printed by Python's `f"{v:.0f}"` (no grouping). -/
def plainFmtChars (v : ℚ) : List Char :=
  (if v < 0 then ['-'] else []) ++ natDigits (rhe |v|).toNat

/-- `custom_bar_percentage` (source lines 53-63). -/
def custom_bar_percentage (value total_sum : ℚ) : String :=
  if total_sum = 0 then "0%"
  else if 0 < value / total_sum * 100 ∧ value / total_sum * 100 < 1 / 2 then "<1%"
  else String.mk (plainFmtChars (value / total_sum * 100) ++ ['%'])

/-! ## Data model -/

/-- A row of `input_expenses.xlsx`: `buisness_name` and a nullable
`total_expense`. -/
structure RawRow where
  buisness_name : String
  total_expense : Option ℚ
deriving DecidableEq

/-- A row of `categories.xlsx`. -/
structure CategoryRule where
  buisness_name : String
  category : String
deriving DecidableEq

/-- A row of `df_merged`: an expense row with its resolved category. -/
structure CatRow where
  buisness_name : String
  total_expense : Option ℚ
  category : String
deriving DecidableEq

/-- One output row of a `groupby(...)[...].sum()` aggregation. -/
structure AggRow where
  key : String
  total : ℚ
deriving DecidableEq

/-- `df_expenses.dropna(subset=['total_expense'])` (source line 264). -/
def dropnaRows (rows : List RawRow) : List RawRow :=
  rows.filter (fun r => r.total_expense.isSome)

/-- The filtered frame of source lines 263-265: dropna, then keep rows with
`total_expense != 0`. -/
def filteredExpenses (rows : List RawRow) : List RawRow :=
  (dropnaRows rows).filter (fun r => !(r.total_expense == some 0))

/-- Numeric value of a possibly-null cell as pandas sums it (NaN adds 0). -/
def amt (r : RawRow) : ℚ :=
  r.total_expense.getD 0

/-- Numeric value of a merged row's expense cell. -/
def catVal (c : CatRow) : ℚ :=
  c.total_expense.getD 0

/-! ## Category resolution (the left merge of source lines 299-305) -/

/-- All category rules matching a row's payee, in table order. -/
def rowMatches (rules : List CategoryRule) (r : RawRow) : List CategoryRule :=
  rules.filter (fun m => m.buisness_name == r.buisness_name)

/-- Output rows the left merge produces for one left row: one per matching
rule, or the row itself with category "Other" (`fillna`) if none match. -/
def mergeRow (rules : List CategoryRule) (r : RawRow) : List CatRow :=
  match rowMatches rules r with
  | [] => [⟨r.buisness_name, r.total_expense, "Other"⟩]
  | ms => ms.map (fun m => ⟨r.buisness_name, r.total_expense, m.category⟩)

/-- `df_expenses.merge(df_categories, on='buisness_name', how='left')`
followed by `fillna('Other')` on the category column. -/
def mergeLeft : List RawRow → List CategoryRule → List CatRow
  | [], _ => []
  | r :: rs, rules => mergeRow rules r ++ mergeLeft rs rules

/-- Source lines 299-305: merge against `categories.xlsx` when the file
exists (`tbl = some rules`), otherwise copy the frame with a constant
category column "Other". -/
def categorize (rows : List RawRow) (tbl : Option (List CategoryRule)) : List CatRow :=
  match tbl with
  | some rules => mergeLeft rows rules
  | none => rows.map (fun r => ⟨r.buisness_name, r.total_expense, "Other"⟩)

/-- Modelled from the spec: the Category Resolver's per-payee lookup,
"first/only match from a left join", defaulting to "Other" when no rule
matches or no table exists.  Used to compare the spec's reading of the
resolver with the merge the code performs. -/
def resolveCat (tbl : Option (List CategoryRule)) (name : String) : String :=
  match tbl with
  | none => "Other"
  | some rules =>
    match rules.find? (fun m => m.buisness_name == name) with
    | some m => m.category
    | none => "Other"

/-! ## Aggregation (`groupby(...).sum()` then `sort_values` descending) -/

/-- Distinct key values in ascending lexicographic order, the group order
pandas `groupby(key, sort=True)` produces. -/
def sortedKeys {α : Type} (rows : List α) (key : α → String) : List String :=
  ((rows.map key).dedup).insertionSort (fun a b => a ≤ b)

/-- Sum of the values of the rows in one group. -/
def groupSum {α : Type} (rows : List α) (key : α → String) (val : α → ℚ) (k : String) : ℚ :=
  ((rows.filter (fun r => key r == k)).map val).sum

/-- `rows.groupby(key, as_index=False)[val].sum()`. -/
def aggregateBy {α : Type} (rows : List α) (key : α → String) (val : α → ℚ) : List AggRow :=
  (sortedKeys rows key).map (fun k => ⟨k, groupSum rows key val k⟩)

/-- `sort_values('total_expense', ascending=False)`, modelled as a stable
descending sort.  Faithful to the program for lists of at most 16 rows:
pandas' reverse/argsort/reverse implementation of `ascending=False`
preserves input tie order whenever the underlying argsort is stable, and
NumPy's default `kind='quicksort'` argsort is its stable insertion sort
exactly up to 16 elements (`SMALL_QUICKSORT = 15`); above that its
introsort partition reorders equal totals unpredictably, so tie-order
claims are only stated for lists within this bound. -/
def sortByTotalDesc (l : List AggRow) : List AggRow :=
  l.insertionSort (fun a b => b.total ≤ a.total)

/-- Group by a key, sum per group, sort by descending total. -/
def aggSorted {α : Type} (rows : List α) (key : α → String) (val : α → ℚ) : List AggRow :=
  sortByTotalDesc (aggregateBy rows key val)

/-- Sum of the `total` column of an aggregation result. -/
def sumTotals (l : List AggRow) : ℚ :=
  (l.map (fun a => a.total)).sum

/-- `df_by_business` (source lines 272-277): aggregation of the filtered
expenses by payee. -/
def byBusiness (rows : List RawRow) : List AggRow :=
  aggSorted (filteredExpenses rows) (fun r => r.buisness_name) amt

/-- `df_merged` as built in `main`: the filtered expenses, categorised. -/
def mergedRows (rows : List RawRow) (tbl : Option (List CategoryRule)) : List CatRow :=
  categorize (filteredExpenses rows) tbl

/-- `df_by_category` (source lines 307-314). -/
def byCategory (rows : List RawRow) (tbl : Option (List CategoryRule)) : List AggRow :=
  aggSorted (mergedRows rows tbl) (fun c => c.category) catVal

/-- `cat_df` for one category (source lines 324-329): the merged rows of
that category, aggregated by payee, sorted by descending total. -/
def catBreakdown (rows : List RawRow) (tbl : Option (List CategoryRule)) (cat : String) :
    List AggRow :=
  aggSorted ((mergedRows rows tbl).filter (fun c => c.category == cat))
    (fun c => c.buisness_name) catVal

/-! ## Report writer (the `f.write` calls of `main`) -/

/-- Concatenation of a list of written fragments. -/
def concatAll : List String → String
  | [] => ""
  | s :: r => s ++ concatAll r

/-- One line of the business section (source line 281). -/
def businessLine (row : AggRow) : String :=
  "Business: " ++ row.key ++ ", Total: " ++ format_int_no_decimals row.total ++ "\n"

/-- The business section (source lines 271-281), written only when
`plot_by_business` is set. -/
def bizSectionText (rows : List RawRow) : String :=
  "=== 1) Aggregation by Business Name ===\n" ++ concatAll ((byBusiness rows).map businessLine)

/-- One category header line (source line 321). -/
def categoryLine (row : AggRow) : String :=
  "Category: " ++ row.key ++ ", Total: " ++ format_int_no_decimals row.total ++ "\n"

/-- One tab-prefixed per-payee line under a category (source line 336). -/
def tabBusinessLine (r : AggRow) : String :=
  "\tBusiness: " ++ r.key ++ " => " ++ format_int_no_decimals r.total ++ "\n"

/-- The block written for one category row: header plus its payee lines. -/
def catBlockText (rows : List RawRow) (tbl : Option (List CategoryRule)) (row : AggRow) :
    String :=
  categoryLine row ++ concatAll ((catBreakdown rows tbl row.key).map tabBusinessLine)

/-- The category section (source lines 296-338). -/
def catSectionText (rows : List RawRow) (tbl : Option (List CategoryRule)) : String :=
  "\n=== 2) Aggregation by Category ===\n" ++
    concatAll ((byCategory rows tbl).map (catBlockText rows tbl))

/-- The whole `output.txt` document written by `main`. -/
def reportText (plotByBusiness : Bool) (rows : List RawRow)
    (tbl : Option (List CategoryRule)) : String :=
  (if plotByBusiness then bizSectionText rows else "") ++ catSectionText rows tbl

/-- The hardcoded toggle of source line 251. -/
def plot_by_business : Bool := false

/-- The report a run of `main` actually writes. -/
def mainReportText (rows : List RawRow) (tbl : Option (List CategoryRule)) : String :=
  reportText plot_by_business rows tbl

/-- `category_details[cat]` (source lines 331-335): payee/formatted-total
pairs for the interactive popup. -/
def categoryDetails (rows : List RawRow) (tbl : Option (List CategoryRule)) (cat : String) :
    List (String × String) :=
  (catBreakdown rows tbl cat).map (fun r => (r.key, format_int_no_decimals r.total))

/-- Join with newlines, as `"\n".join(lines)`. -/
def joinSepStr (sep : String) : List String → String
  | [] => ""
  | [s] => s
  | s :: r => s ++ sep ++ joinSepStr sep r

/-- The popup text built by `on_add` (source lines 186-193): a category
header line, then one line per payee with the payee name passed through
`reverse_line_hebrew_words_and_order`. -/
def popupText (cat : String) (details : List (String × String)) : String :=
  joinSepStr "\n"
    (("Category: " ++ cat) ::
      details.map (fun p => reverse_line_hebrew_words_and_order p.1 ++ " => " ++ p.2))

/-! ## Pie chart outcome (source lines 204-248) -/

/-- Observable outcome of `plot_fraction_pie`: either the chart is skipped
with a logged message, or wedges with the given fractions are drawn. -/
inductive PieResult where
  | skipped (msg : String)
  | plotted (fractions : List ℚ)
deriving DecidableEq

/-- `plot_fraction_pie` (source lines 204-213): on a zero grand total it
prints an informational message and returns; otherwise it draws wedges
sized `values / total_sum`. -/
def plot_fraction_pie (values : List ℚ) (title_label : String) : PieResult :=
  if values.sum = 0 then
    .skipped ("[INFO] No non-zero data for " ++ title_label ++ ", skipping pie chart.")
  else
    .plotted (values.map (fun v => v / values.sum))

/-! ## Substring predicate used to state report-content claims -/

/-- Boolean prefix test on character lists. -/
def isPre : List Char → List Char → Bool
  | [], _ => true
  | _ :: _, [] => false
  | a :: n, b :: h => (a == b) && isPre n h

/-- Boolean substring test on character lists. -/
def hasSub (n : List Char) : List Char → Bool
  | [] => n.isEmpty
  | c :: h => isPre n (c :: h) || hasSub n h

/-- `n` occurs contiguously inside `h`. -/
def SubstringOf (n h : List Char) : Prop :=
  ∃ s t, h = s ++ n ++ t

/-- The lookup table, when present, has at most one rule per payee. -/
def tableNodup : Option (List CategoryRule) → Prop
  | none => True
  | some rules => (rules.map (fun m => m.buisness_name)).Nodup

/-- Descending by total, ties in ascending key order: the order the
aggregation pipeline actually produces. -/
def aggOrd (a b : AggRow) : Prop :=
  b.total < a.total ∨ (a.total = b.total ∧ a.key < b.key)

/-! ## Concrete inputs used by witnesses and counterexamples -/

/-- One expense row for payee "Acme". -/
def rowsAcme : List RawRow := [⟨"Acme", some 100⟩]

/-- A lookup table holding two rules for the same payee. -/
def tblDup : Option (List CategoryRule) := some [⟨"Acme", "A"⟩, ⟨"Acme", "B"⟩]

/-- A single-rule lookup table. -/
def tblRetail : Option (List CategoryRule) := some [⟨"Acme", "Retail"⟩]

/-- Two payees with equal totals, "b" appearing before "a". -/
def rowsTie : List RawRow := [⟨"b", some 10⟩, ⟨"a", some 10⟩]

/-- The spec's end-to-end example rows. -/
def rowsEx : List RawRow :=
  [⟨"A", some 100⟩, ⟨"B", some 0⟩, ⟨"C", none⟩, ⟨"A", some 50⟩]

/-! ## Substring lemmas -/

theorem isPre_iff : ∀ n h : List Char, isPre n h = true ↔ ∃ t, h = n ++ t
  | [], h => by
    simp [isPre]
  | a :: n, [] => by
    simp [isPre]
  | a :: n, b :: h => by
    simp only [isPre, Bool.and_eq_true, beq_iff_eq]
    constructor
    · rintro ⟨rfl, hp⟩
      obtain ⟨t, rfl⟩ := (isPre_iff n h).mp hp
      exact ⟨t, rfl⟩
    · rintro ⟨t, ht⟩
      rw [List.cons_append] at ht
      injection ht with hb hh
      exact ⟨hb.symm, (isPre_iff n h).mpr ⟨t, hh⟩⟩

theorem hasSub_iff (n : List Char) : ∀ h : List Char, hasSub n h = true ↔ SubstringOf n h := by
  intro h
  induction h with
  | nil =>
    simp only [hasSub, SubstringOf, List.isEmpty_iff]
    constructor
    · rintro rfl
      exact ⟨[], [], rfl⟩
    · rintro ⟨s, t, hst⟩
      have h0 : s ++ (n ++ t) = [] := by simpa using hst.symm
      simp only [List.append_eq_nil] at h0
      exact h0.2.1
  | cons c h ih =>
    simp only [hasSub, Bool.or_eq_true, ih, isPre_iff]
    constructor
    · rintro (⟨t, ht⟩ | ⟨s, t, hst⟩)
      · exact ⟨[], t, by simp [ht]⟩
      · exact ⟨c :: s, t, by simp [hst]⟩
    · rintro ⟨s, t, hst⟩
      cases s with
      | nil => exact Or.inl ⟨t, by simpa using hst⟩
      | cons x s =>
        right
        refine ⟨s, t, ?_⟩
        have := hst
        simp only [List.cons_append] at this
        exact (List.cons.injEq .. ▸ this).2

theorem SubstringOf.append_left {n h : List Char} (g : List Char) (hs : SubstringOf n h) :
    SubstringOf n (g ++ h) := by
  obtain ⟨s, t, rfl⟩ := hs
  exact ⟨g ++ s, t, by simp⟩

theorem SubstringOf.append_right {n h : List Char} (g : List Char) (hs : SubstringOf n h) :
    SubstringOf n (h ++ g) := by
  obtain ⟨s, t, rfl⟩ := hs
  exact ⟨s, t ++ g, by simp⟩

theorem substringOf_self_append (n t : List Char) : SubstringOf n (n ++ t) :=
  ⟨[], t, rfl⟩

theorem data_append (a b : String) : (a ++ b).data = a.data ++ b.data := by
  cases a
  cases b
  rfl

theorem substringOf_concatAll {s : String} {l : List String} (hmem : s ∈ l) :
    SubstringOf s.data (concatAll l).data := by
  induction l with
  | nil => cases hmem
  | cons x r ih =>
    rcases List.mem_cons.mp hmem with rfl | hr
    · rw [concatAll, data_append]
      exact substringOf_self_append _ _
    · rw [concatAll, data_append]
      exact (ih hr).append_left _

/-! ## Digit-rendering lemmas -/

theorem natDigitChar_ne_lt {d : Nat} (hd : d < 10) : natDigitChar d ≠ '<' := by
  interval_cases d <;> decide

theorem mem_natDigitsGo :
    ∀ fuel n, n < fuel → ∀ c ∈ natDigitsGo fuel n, ∃ d, d < 10 ∧ c = natDigitChar d := by
  intro fuel
  induction fuel with
  | zero => omega
  | succ fuel ih =>
    intro n hn c hc
    rw [natDigitsGo] at hc
    by_cases h10 : n < 10
    · rw [if_pos h10] at hc
      exact ⟨n, h10, by simpa using hc⟩
    · rw [if_neg h10] at hc
      rcases List.mem_append.mp hc with hl | hr
      · have hdiv : n / 10 < fuel := by
          have : n / 10 < n := Nat.div_lt_self (by omega) (by omega)
          omega
        exact ih (n / 10) hdiv c hl
      · exact ⟨n % 10, Nat.mod_lt n (by omega), by simpa using hr⟩

theorem mem_natDigits {n : Nat} {c : Char} (hc : c ∈ natDigits n) :
    ∃ d, d < 10 ∧ c = natDigitChar d :=
  mem_natDigitsGo (n + 1) n (Nat.lt_succ_self n) c hc

theorem mem_group3Go :
    ∀ fuel l c, c ∈ group3Go fuel l → c ∈ l ∨ c = ',' := by
  intro fuel
  induction fuel with
  | zero =>
    intro l c hc
    exact Or.inl hc
  | succ fuel ih =>
    intro l c hc
    rw [group3Go] at hc
    by_cases h3 : l.length ≤ 3
    · rw [if_pos h3] at hc
      exact Or.inl hc
    · rw [if_neg h3] at hc
      rcases List.mem_append.mp hc with hl | hr
      · exact Or.inl (List.take_subset 3 l hl)
      · rcases List.mem_cons.mp hr with rfl | hg
        · exact Or.inr rfl
        · rcases ih _ c hg with hd | hcomma
          · exact Or.inl (List.drop_subset 3 l hd)
          · exact Or.inr hcomma

theorem mem_withCommas {n : Nat} {c : Char} (hc : c ∈ withCommas n) : c ≠ '<' := by
  rw [withCommas, List.mem_reverse] at hc
  rcases mem_group3Go _ _ _ hc with hd | rfl
  · rw [List.mem_reverse] at hd
    obtain ⟨d, hd10, rfl⟩ := mem_natDigits hd
    exact natDigitChar_ne_lt hd10
  · decide

theorem lt_not_mem_commaFmtChars (v : ℚ) : '<' ∉ commaFmtChars v := by
  intro hmem
  rw [commaFmtChars] at hmem
  rcases List.mem_append.mp hmem with hs | hw
  · by_cases hv : v < 0
    · rw [if_pos hv] at hs
      simp at hs
    · rw [if_neg hv] at hs
      simp at hs
  · exact mem_withCommas hw rfl

theorem lt_not_mem_plainFmtChars (v : ℚ) : '<' ∉ plainFmtChars v := by
  intro hmem
  rw [plainFmtChars] at hmem
  rcases List.mem_append.mp hmem with hs | hw
  · by_cases hv : v < 0
    · rw [if_pos hv] at hs
      simp at hs
    · rw [if_neg hv] at hs
      simp at hs
  · obtain ⟨d, hd10, hd⟩ := mem_natDigits hw
    exact natDigitChar_ne_lt hd10 hd.symm

/-! ## Claim C4 -/

/-- C4: `format_int_no_decimals` returns the sentinel `"<1"` exactly when
`0 < v < 1`; otherwise it renders the value rounded to the nearest whole
unit with comma grouping separators and a leading minus on negative
values, as checked on `0.5 ↦ "<1"`, `1234.56 ↦ "1,235"`, `-42 ↦ "-42"` and
`-1234.567 ↦ "-1,235"`. -/
theorem c4_formatAmount_sentinel_and_grouping (v : ℚ) :
    (format_int_no_decimals v = "<1" ↔ 0 < v ∧ v < 1) ∧
    format_int_no_decimals (1 / 2) = "<1" ∧
    format_int_no_decimals (123456 / 100) = "1,235" ∧
    format_int_no_decimals (-42) = "-42" ∧
    format_int_no_decimals (-1234567 / 1000) = "-1,235" := by
  refine ⟨?_, by with_unfolding_all decide, by with_unfolding_all decide,
    by with_unfolding_all decide, by with_unfolding_all decide⟩
  constructor
  · intro heq
    by_contra hcond
    rw [format_int_no_decimals, if_neg hcond] at heq
    have hdata : commaFmtChars v = ['<', '1'] := by
      have := congrArg String.data heq
      simpa using this
    exact lt_not_mem_commaFmtChars v (hdata ▸ List.mem_cons_self _ _)
  · intro hcond
    rw [format_int_no_decimals, if_pos hcond]

/-! ## Claim C5 -/

/-- C5: `custom_bar_percentage` returns `"0%"` when the total is zero,
returns `"<1%"` exactly when the total is nonzero and the percentage lies
strictly between 0 and 0.5, and otherwise renders the rounded percentage
with a `%` suffix, as checked on `(1, 1000) ↦ "<1%"`, `(0, 0) ↦ "0%"` and
`(50, 100) ↦ "50%"`. -/
theorem c5_formatPercentage_branches (value total : ℚ) :
    (total = 0 → custom_bar_percentage value total = "0%") ∧
    (custom_bar_percentage value total = "<1%" ↔
      total ≠ 0 ∧ 0 < value / total * 100 ∧ value / total * 100 < 1 / 2) ∧
    (total ≠ 0 → ¬(0 < value / total * 100 ∧ value / total * 100 < 1 / 2) →
      custom_bar_percentage value total =
        String.mk (plainFmtChars (value / total * 100) ++ ['%'])) ∧
    custom_bar_percentage 1 1000 = "<1%" ∧
    custom_bar_percentage 0 0 = "0%" ∧
    custom_bar_percentage 50 100 = "50%" := by
  refine ⟨?_, ⟨?_, ?_⟩, ?_, by with_unfolding_all decide, by with_unfolding_all decide,
    by with_unfolding_all decide⟩
  · intro h0
    rw [custom_bar_percentage, if_pos h0]
  · intro heq
    by_cases h0 : total = 0
    · rw [custom_bar_percentage, if_pos h0] at heq
      exact absurd (congrArg String.data heq) (by decide)
    · by_cases hp : 0 < value / total * 100 ∧ value / total * 100 < 1 / 2
      · exact ⟨h0, hp⟩
      · rw [custom_bar_percentage, if_neg h0, if_neg hp] at heq
        have hdata : plainFmtChars (value / total * 100) ++ ['%'] = ['<', '1', '%'] := by
          have := congrArg String.data heq
          simpa using this
        have hlt : '<' ∈ plainFmtChars (value / total * 100) ++ ['%'] := by
          rw [hdata]
          exact List.mem_cons_self _ _
        rcases List.mem_append.mp hlt with hm | hm
        · exact (lt_not_mem_plainFmtChars _ hm).elim
        · simp at hm
  · rintro ⟨h0, hp⟩
    rw [custom_bar_percentage, if_neg h0, if_pos hp]
  · intro h0 hp
    rw [custom_bar_percentage, if_neg h0, if_neg hp]

/-- Witness for C5: the zero-total and rounded branches applied at
concrete inputs. -/
theorem c5_formatPercentage_branches_witness :
    custom_bar_percentage 0 0 = "0%" ∧ custom_bar_percentage 17 100 = "17%" := by
  constructor
  · exact (c5_formatPercentage_branches 0 0).1 rfl
  · have h := (c5_formatPercentage_branches 17 100).2.2.1 (by norm_num) (by norm_num)
    rw [h]
    with_unfolding_all decide

/-! ## Claim C8 -/

/-- C8: when the grand total of the values handed to `plot_fraction_pie`
is zero the function draws nothing: it returns the skipped outcome
carrying the informational log message, so the program continues. -/
theorem c8_zero_total_pie_skipped (values : List ℚ) (title : String)
    (h : values.sum = 0) :
    plot_fraction_pie values title =
      .skipped ("[INFO] No non-zero data for " ++ title ++ ", skipping pie chart.") := by
  rw [plot_fraction_pie, if_pos h]

/-- Witness for C8: a nonempty value list (a charge and its refund)
summing to zero is skipped. -/
theorem c8_zero_total_pie_skipped_witness :
    plot_fraction_pie [5, -5] "Category" =
      .skipped "[INFO] No non-zero data for Category, skipping pie chart." := by
  rw [c8_zero_total_pie_skipped [5, -5] "Category" (by with_unfolding_all decide)]
  with_unfolding_all decide

/-! ## Hebrew-token lemmas (claims C9, C10) -/

theorem hebToken_iff (t : List Char) :
    hebToken t = true ↔
      (t ≠ [] ∧ ∀ c ∈ t, isHebrewChar c = true) ∨ '\"' ∈ t ∨ '-' ∈ t ∨ '/' ∈ t := by
  simp [hebToken, List.all_eq_true, List.isEmpty_iff, List.contains, List.elem_eq_mem]
  tauto

theorem hebToken_reverse (t : List Char) : hebToken t.reverse = hebToken t := by
  rw [Bool.eq_iff_iff]
  constructor
  · intro h
    rcases (hebToken_iff t.reverse).mp h with ⟨hne, hall⟩ | hm
    · exact (hebToken_iff t).mpr (Or.inl ⟨by simpa using hne,
        fun c hc => hall c (List.mem_reverse.mpr hc)⟩)
    · exact (hebToken_iff t).mpr (Or.inr (by simpa using hm))
  · intro h
    rcases (hebToken_iff t).mp h with ⟨hne, hall⟩ | hm
    · exact (hebToken_iff t.reverse).mpr (Or.inl ⟨by simpa using hne,
        fun c hc => hall c (List.mem_reverse.mp hc)⟩)
    · exact (hebToken_iff t.reverse).mpr (Or.inr (by simpa [List.mem_reverse] using hm))

theorem hebMap_involutive (t : List Char) : hebMap (hebMap t) = t := by
  by_cases h : hebToken t = true
  · have h1 : hebMap t = t.reverse := by rw [hebMap, if_pos h]
    rw [h1, hebMap, hebToken_reverse, if_pos h, List.reverse_reverse]
  · have h1 : hebMap t = t := by rw [hebMap, if_neg h]
    rw [h1, h1]

theorem hebMap_ne_nil {t : List Char} (h : t ≠ []) : hebMap t ≠ [] := by
  rw [hebMap]
  by_cases hh : hebToken t = true
  · rw [if_pos hh]
    simpa using h
  · rwa [if_neg hh]

theorem mem_hebMap {t : List Char} {c : Char} (h : c ∈ hebMap t) : c ∈ t := by
  rw [hebMap] at h
  by_cases hh : hebToken t = true
  · rw [if_pos hh] at h
    exact List.mem_reverse.mp h
  · rwa [if_neg hh] at h

/-! ## Whitespace-splitting lemmas -/

theorem splitWsAux_absorb :
    ∀ t acc rest : List Char, (∀ c ∈ t, isWs c = false) →
      splitWsAux (t ++ rest) acc = splitWsAux rest (t.reverse ++ acc) := by
  intro t
  induction t with
  | nil =>
    intro acc rest _
    simp
  | cons c t ih =>
    intro acc rest hws
    have hc : isWs c = false := hws c (List.mem_cons_self c t)
    rw [List.cons_append, splitWsAux, hc]
    simp only [Bool.false_eq_true, if_false]
    rw [ih (c :: acc) rest (fun d hd => hws d (List.mem_cons_of_mem c hd))]
    simp

theorem splitWs_join :
    ∀ ts : List (List Char), (∀ t ∈ ts, t ≠ [] ∧ ∀ c ∈ t, isWs c = false) →
      splitWsChars (joinChars ts) = ts := by
  intro ts
  induction ts with
  | nil =>
    intro _
    rfl
  | cons t ts ih =>
    intro hts
    obtain ⟨htne, htws⟩ := hts t (List.mem_cons_self t ts)
    cases ts with
    | nil =>
      show splitWsAux (joinChars [t]) [] = [t]
      have hj : joinChars [t] = t ++ [] := by simp [joinChars]
      rw [hj, splitWsAux_absorb t [] [] htws, splitWsAux]
      have hne : (t.reverse ++ []).isEmpty = false := by
        simp [List.isEmpty_iff, htne]
      rw [hne]
      simp
    | cons t2 ts2 =>
      show splitWsAux (joinChars (t :: t2 :: ts2)) [] = t :: t2 :: ts2
      have hj : joinChars (t :: t2 :: ts2) = t ++ ' ' :: joinChars (t2 :: ts2) := by
        rfl
      rw [hj, splitWsAux_absorb t [] (' ' :: joinChars (t2 :: ts2)) htws, splitWsAux]
      have hw : isWs ' ' = true := by decide
      rw [hw]
      simp only [if_true]
      have hne : (t.reverse ++ []).isEmpty = false := by
        simp [List.isEmpty_iff, htne]
      rw [hne]
      simp only [Bool.false_eq_true, if_false, List.append_nil, List.reverse_reverse]
      exact congrArg (fun l => t :: l) (ih (fun u hu => hts u (List.mem_cons_of_mem t hu)))

theorem splitWsAux_tokens :
    ∀ l acc : List Char, (∀ c ∈ acc, isWs c = false) →
      ∀ t ∈ splitWsAux l acc, t ≠ [] ∧ ∀ c ∈ t, isWs c = false := by
  intro l
  induction l with
  | nil =>
    intro acc hacc t ht
    rw [splitWsAux] at ht
    by_cases he : acc.isEmpty
    · rw [if_pos he] at ht
      cases ht
    · rw [if_neg he] at ht
      rcases List.mem_cons.mp ht with rfl | hf
      · refine ⟨?_, fun c hc => hacc c (List.mem_reverse.mp hc)⟩
        simp only [ne_eq, List.reverse_eq_nil_iff]
        intro hnil
        exact he (hnil ▸ rfl)
      · cases hf
  | cons c rest ih =>
    intro acc hacc t ht
    rw [splitWsAux] at ht
    by_cases hc : isWs c = true
    · rw [hc] at ht
      simp only [if_true] at ht
      by_cases he : acc.isEmpty
      · rw [if_pos he] at ht
        exact ih [] (by simp) t ht
      · rw [if_neg he] at ht
        rcases List.mem_cons.mp ht with rfl | hf
        · refine ⟨?_, fun d hd => hacc d (List.mem_reverse.mp hd)⟩
          simp only [ne_eq, List.reverse_eq_nil_iff]
          intro hnil
          exact he (hnil ▸ rfl)
        · exact ih [] (by simp) t hf
    · have hc' : isWs c = false := by simpa using hc
      rw [hc'] at ht
      simp only [Bool.false_eq_true, if_false] at ht
      refine ih (c :: acc) ?_ t ht
      intro d hd
      rcases List.mem_cons.mp hd with rfl | hd2
      · exact hc'
      · exact hacc d hd2

theorem splitWsChars_tokens {s : List Char} :
    ∀ t ∈ splitWsChars s, t ≠ [] ∧ ∀ c ∈ t, isWs c = false :=
  splitWsAux_tokens s [] (by simp)

/-! ## Claim C9 -/

/-- C9: a token is classified "fully Hebrew" exactly when it consists only
of characters in U+0590-U+05FF, or contains a double quote, hyphen, or
slash anywhere; the popup line is split on whitespace, token order
reversed, classified tokens letter-reversed, and joined with single
spaces — so the pure-ASCII token "ab-cd" is letter-reversed too, and the
popup builder passes each payee name through the transformation. -/
theorem c9_hebrew_detection_and_reversal (w : String) (line : String) :
    (is_all_hebrew w = true ↔
      (w.data ≠ [] ∧ ∀ c ∈ w.data, isHebrewChar c = true) ∨
        '\"' ∈ w.data ∨ '-' ∈ w.data ∨ '/' ∈ w.data) ∧
    reverse_line_hebrew_words_and_order line =
      String.mk (joinChars (((splitWsChars line.data).reverse).map hebMap)) ∧
    reverse_line_hebrew_words_and_order "ab-cd xy" = "xy dc-ba" ∧
    reverse_line_hebrew_words_and_order "שלום עולם" = "םלוע םולש" ∧
    popupText "Food" [("שלום עולם", "1,234")] = "Category: Food\nםלוע םולש => 1,234" := by
  refine ⟨hebToken_iff w.data, rfl, by with_unfolding_all decide,
    by with_unfolding_all decide, by with_unfolding_all decide⟩

/-! ## Claim C10 -/

/-- C10: on a normalized line (one recovered unchanged by splitting on
whitespace and re-joining with single spaces) the popup reversal is an
involution: applying it twice gives the line back. -/
theorem c10_reversal_involution (s : String)
    (hnorm : joinChars (splitWsChars s.data) = s.data) :
    reverse_line_hebrew_words_and_order (reverse_line_hebrew_words_and_order s) = s := by
  have hmapdef : ∀ u : String,
      reverse_line_hebrew_words_and_order u =
        String.mk (joinChars (((splitWsChars u.data).reverse).map hebMap)) := by
    intro u
    rfl
  set ts := splitWsChars s.data with hts
  have htok : ∀ t ∈ ts, t ≠ [] ∧ ∀ c ∈ t, isWs c = false := splitWsChars_tokens
  have htok2 : ∀ t ∈ (ts.reverse).map hebMap, t ≠ [] ∧ ∀ c ∈ t, isWs c = false := by
    intro t ht
    obtain ⟨u, hu, rfl⟩ := List.mem_map.mp ht
    have hu2 := htok u (List.mem_reverse.mp hu)
    exact ⟨hebMap_ne_nil hu2.1, fun c hc => hu2.2 c (mem_hebMap hc)⟩
  have hext : ∀ a b : String, a.data = b.data → a = b := by
    intro a b hab
    cases a
    cases b
    cases hab
    rfl
  rw [hmapdef s, hmapdef _]
  apply hext
  show joinChars (((splitWsChars (joinChars ((ts.reverse).map hebMap))).reverse).map hebMap) =
    s.data
  have hsplit2 : splitWsChars (joinChars ((ts.reverse).map hebMap)) = (ts.reverse).map hebMap :=
    splitWs_join _ htok2
  rw [hsplit2]
  have hmm : (((ts.reverse).map hebMap).reverse).map hebMap = ts := by
    rw [← List.map_reverse, List.reverse_reverse, List.map_map]
    have hid : ∀ t ∈ ts, (hebMap ∘ hebMap) t = t := fun t _ => hebMap_involutive t
    rw [List.map_congr_left hid]
    simp
  rw [hmm, hnorm]

/-- Witness for C10: the normalized line "ab-cd xy" round-trips. -/
theorem c10_reversal_involution_witness :
    reverse_line_hebrew_words_and_order (reverse_line_hebrew_words_and_order "ab-cd xy") =
      "ab-cd xy" :=
  c10_reversal_involution "ab-cd xy" (by with_unfolding_all decide)

/-! ## Aggregation sum lemmas -/

theorem sum_ite_single {ks : List String} (hnd : ks.Nodup) {c : String} (hc : c ∈ ks)
    (x : ℚ) : (ks.map (fun k => if c = k then x else 0)).sum = x := by
  induction ks with
  | nil => cases hc
  | cons k ks ih =>
    rw [List.map_cons, List.sum_cons]
    rcases List.mem_cons.mp hc with rfl | hmem
    · rw [if_pos rfl]
      have hrest : (ks.map (fun k => if c = k then x else 0)).sum = 0 := by
        apply List.sum_eq_zero
        intro y hy
        obtain ⟨k2, hk2, rfl⟩ := List.mem_map.mp hy
        have hne : c ≠ k2 := by
          rintro rfl
          exact (List.nodup_cons.mp hnd).1 hk2
        rw [if_neg hne]
      rw [hrest, add_zero]
    · have hne : c ≠ k := by
        rintro rfl
        exact (List.nodup_cons.mp hnd).1 hmem
      rw [if_neg hne, zero_add]
      exact ih (List.nodup_cons.mp hnd).2 hmem

theorem groupSum_cons {α : Type} (r : α) (rows : List α) (key : α → String) (val : α → ℚ)
    (k : String) :
    groupSum (r :: rows) key val k = (if key r = k then val r else 0) + groupSum rows key val k := by
  rw [groupSum, List.filter_cons]
  by_cases h : key r = k
  · rw [if_pos (by simpa using h), if_pos h, List.map_cons, List.sum_cons]
    rfl
  · rw [if_neg (by simpa using h), if_neg h, zero_add]
    rfl

theorem sum_groupSums {α : Type} (rows : List α) (key : α → String) (val : α → ℚ) :
    ∀ ks : List String, ks.Nodup → (∀ r ∈ rows, key r ∈ ks) →
      (ks.map (fun k => groupSum rows key val k)).sum = (rows.map val).sum := by
  induction rows with
  | nil =>
    intro ks _ _
    apply List.sum_eq_zero
    intro y hy
    obtain ⟨k, hk, rfl⟩ := List.mem_map.mp hy
    rfl
  | cons r rows ih =>
    intro ks hnd hall
    have hsplit : (ks.map (fun k => groupSum (r :: rows) key val k)).sum =
        (ks.map (fun k => if key r = k then val r else 0)).sum +
          (ks.map (fun k => groupSum rows key val k)).sum := by
      rw [← List.sum_map_add]
      congr 1
      apply List.map_congr_left
      intro k _
      rw [groupSum_cons]
    rw [hsplit, sum_ite_single hnd (hall r (List.mem_cons_self r rows)) (val r),
      ih ks hnd (fun x hx => hall x (List.mem_cons_of_mem r hx)), List.map_cons,
      List.sum_cons]

theorem sortedKeys_nodup {α : Type} (rows : List α) (key : α → String) :
    (sortedKeys rows key).Nodup :=
  (List.perm_insertionSort _ _).nodup_iff.mpr (List.nodup_dedup _)

theorem mem_sortedKeys {α : Type} {rows : List α} {key : α → String} {r : α} (hr : r ∈ rows) :
    key r ∈ sortedKeys rows key :=
  (List.perm_insertionSort _ _).mem_iff.mpr (List.mem_dedup.mpr (List.mem_map_of_mem key hr))

theorem sumTotals_aggregateBy {α : Type} (rows : List α) (key : α → String) (val : α → ℚ) :
    sumTotals (aggregateBy rows key val) = (rows.map val).sum := by
  rw [sumTotals, aggregateBy, List.map_map]
  exact sum_groupSums rows key val (sortedKeys rows key) (sortedKeys_nodup rows key)
    (fun r hr => mem_sortedKeys hr)

theorem sumTotals_perm {l l2 : List AggRow} (h : l.Perm l2) : sumTotals l = sumTotals l2 := by
  rw [sumTotals, sumTotals]
  exact (h.map (fun a => a.total)).sum_eq

theorem sumTotals_aggSorted {α : Type} (rows : List α) (key : α → String) (val : α → ℚ) :
    sumTotals (aggSorted rows key val) = (rows.map val).sum :=
  calc sumTotals (aggSorted rows key val) = sumTotals (aggregateBy rows key val) :=
        sumTotals_perm (List.perm_insertionSort _ _)
    _ = (rows.map val).sum := sumTotals_aggregateBy rows key val

/-- Key fact shared by C1 and C3: the by-payee aggregation totals sum to
the total of the filtered amounts. -/
theorem sumTotals_byBusiness (rows : List RawRow) :
    sumTotals (byBusiness rows) = ((filteredExpenses rows).map amt).sum :=
  sumTotals_aggSorted _ _ _

/-! ## Merge lemmas -/

theorem filter_eq_find (rules : List CategoryRule)
    (hnd : (rules.map (fun m => m.buisness_name)).Nodup) (c : String) :
    rules.filter (fun m => m.buisness_name == c) =
      (rules.find? (fun m => m.buisness_name == c)).toList := by
  induction rules with
  | nil => rfl
  | cons m ms ih =>
    rw [List.map_cons, List.nodup_cons] at hnd
    by_cases h : m.buisness_name = c
    · have hrest : ms.filter (fun m2 => m2.buisness_name == c) = [] := by
        rw [List.filter_eq_nil_iff]
        intro m2 hm2
        simp only [beq_iff_eq]
        intro hc2
        exact hnd.1 (h ▸ hc2 ▸ List.mem_map_of_mem (fun m => m.buisness_name) hm2)
      simp [List.filter_cons, List.find?_cons, h, hrest]
    · have hf : (m.buisness_name == c) = false := by simpa using h
      rw [List.filter_cons, List.find?_cons]
      simp only [hf, Bool.false_eq_true, if_false]
      exact ih hnd.2

theorem mergeRow_resolved (rules : List CategoryRule)
    (hnd : (rules.map (fun m => m.buisness_name)).Nodup) (r : RawRow) :
    mergeRow rules r =
      [⟨r.buisness_name, r.total_expense, resolveCat (some rules) r.buisness_name⟩] := by
  rw [mergeRow, rowMatches, filter_eq_find rules hnd r.buisness_name]
  cases hfind : rules.find? (fun m => m.buisness_name == r.buisness_name) with
  | none =>
    simp [resolveCat, hfind]
  | some m =>
    simp [resolveCat, hfind]

theorem mergeLeft_resolved (rules : List CategoryRule)
    (hnd : (rules.map (fun m => m.buisness_name)).Nodup) :
    ∀ rows : List RawRow,
      mergeLeft rows rules =
        rows.map (fun r =>
          ⟨r.buisness_name, r.total_expense, resolveCat (some rules) r.buisness_name⟩) := by
  intro rows
  induction rows with
  | nil => rfl
  | cons r rs ih =>
    show mergeRow rules r ++ mergeLeft rs rules = _
    rw [mergeRow_resolved rules hnd r, ih, List.map_cons]
    rfl

theorem categorize_resolved (rows : List RawRow) (tbl : Option (List CategoryRule))
    (hnd : tableNodup tbl) :
    categorize rows tbl =
      rows.map (fun r => ⟨r.buisness_name, r.total_expense, resolveCat tbl r.buisness_name⟩) := by
  cases tbl with
  | none => rfl
  | some rules => exact mergeLeft_resolved rules hnd rows

theorem mem_categorize_expense {rows : List RawRow} {tbl : Option (List CategoryRule)}
    {c : CatRow} (hc : c ∈ categorize rows tbl) :
    ∃ r ∈ rows, c.total_expense = r.total_expense := by
  cases tbl with
  | none =>
    obtain ⟨r, hr, rfl⟩ := List.mem_map.mp hc
    exact ⟨r, hr, rfl⟩
  | some rules =>
    induction rows with
    | nil => cases hc
    | cons r rs ih =>
      rcases List.mem_append.mp hc with hl | hr2
      · refine ⟨r, List.mem_cons_self r rs, ?_⟩
        rw [mergeRow] at hl
        cases hm : rowMatches rules r with
        | nil =>
          rw [hm] at hl
          rcases List.mem_cons.mp hl with rfl | hf
          · rfl
          · cases hf
        | cons m ms =>
          rw [hm] at hl
          obtain ⟨m2, _, rfl⟩ := List.mem_map.mp hl
          rfl
      · obtain ⟨r2, hr2m, he⟩ := ih hr2
        exact ⟨r2, List.mem_cons_of_mem r hr2m, he⟩

/-! ## Claim C1 -/

/-- C1 (amended): provided the lookup table, when present, has at most one
rule per payee, the by-payee totals and the by-category totals each sum to
the sum of the post-filter amounts.  (The unrestricted claim fails: see
the counterexample with a duplicate-payee table.) -/
theorem c1_sum_preservation (rows : List RawRow) (tbl : Option (List CategoryRule))
    (hnd : tableNodup tbl) :
    sumTotals (byBusiness rows) = ((filteredExpenses rows).map amt).sum ∧
    sumTotals (byCategory rows tbl) = ((filteredExpenses rows).map amt).sum := by
  refine ⟨sumTotals_byBusiness rows, ?_⟩
  rw [byCategory, sumTotals_aggSorted, mergedRows, categorize_resolved _ _ hnd,
    List.map_map]
  rfl

/-- C1 counterexample: with the duplicate-payee table the left merge
duplicates the Acme row, so the by-category sum (200) differs from the
by-payee sum and from the filtered amount sum (both 100). -/
theorem c1_sum_preservation_cex :
    sumTotals (byCategory rowsAcme tblDup) ≠ sumTotals (byBusiness rowsAcme) ∧
    sumTotals (byCategory rowsAcme tblDup) ≠ ((filteredExpenses rowsAcme).map amt).sum := by
  with_unfolding_all decide

/-- Witness for C1: the amended claim applied to the spec's end-to-end
rows with a single-rule table. -/
theorem c1_sum_preservation_witness :
    sumTotals (byBusiness rowsEx) = ((filteredExpenses rowsEx).map amt).sum ∧
    sumTotals (byCategory rowsEx tblRetail) = ((filteredExpenses rowsEx).map amt).sum :=
  c1_sum_preservation rowsEx tblRetail (by simp only [tblRetail, tableNodup]; with_unfolding_all decide)

/-! ## Claim C2 -/

/-- C2 (amended): when the lookup table is absent or has at most one rule
per payee, the resolver produces exactly one categorised record per input
record — the one whose category is the first/only matching rule's
category, or "Other" when no rule matches — and in particular preserves
length; with the table absent every record's category is "Other".  (The
unrestricted claim fails on duplicate-payee tables: see the
counterexample.) -/
theorem c2_resolver_one_row_per_record (rows : List RawRow)
    (tbl : Option (List CategoryRule)) (hnd : tableNodup tbl) :
    categorize rows tbl =
      rows.map (fun r => ⟨r.buisness_name, r.total_expense, resolveCat tbl r.buisness_name⟩) ∧
    (categorize rows tbl).length = rows.length ∧
    (∀ c ∈ categorize rows none, c.category = "Other") := by
  refine ⟨categorize_resolved rows tbl hnd, ?_, ?_⟩
  · rw [categorize_resolved rows tbl hnd, List.length_map]
  · intro c hc
    obtain ⟨r, _, rfl⟩ := List.mem_map.mp hc
    rfl

/-- C2 counterexample: the duplicate-payee table makes the left merge
emit two categorised records for the single filtered Acme record. -/
theorem c2_resolver_one_row_per_record_cex :
    (categorize (filteredExpenses rowsAcme) tblDup).length ≠
      (filteredExpenses rowsAcme).length := by
  with_unfolding_all decide

/-- Witness for C2: the amended claim applied to the Acme row with the
single-rule table. -/
theorem c2_resolver_one_row_per_record_witness :
    categorize rowsAcme tblRetail =
      rowsAcme.map (fun r =>
        ⟨r.buisness_name, r.total_expense, resolveCat tblRetail r.buisness_name⟩) ∧
    (categorize rowsAcme tblRetail).length = rowsAcme.length ∧
    (∀ c ∈ categorize rowsAcme none, c.category = "Other") :=
  c2_resolver_one_row_per_record rowsAcme tblRetail (by simp only [tblRetail, tableNodup]; with_unfolding_all decide)

/-! ## Claim C3 -/

/-- C3: the filter keeps exactly the rows whose amount cell holds a
nonzero value — null/missing and exactly-zero rows are dropped, negative
amounts pass — the by-payee aggregation totals sum precisely the surviving
amounts, and every merged row feeding the by-category aggregation carries
a surviving (non-null, nonzero) amount. -/
theorem c3_filter_null_and_zero (rows : List RawRow) (tbl : Option (List CategoryRule)) :
    (∀ r : RawRow, r ∈ filteredExpenses rows ↔
      r ∈ rows ∧ ∃ a, r.total_expense = some a ∧ a ≠ 0) ∧
    sumTotals (byBusiness rows) = ((filteredExpenses rows).map amt).sum ∧
    (∀ c ∈ mergedRows rows tbl, ∃ a, c.total_expense = some a ∧ a ≠ 0) := by
  have hmem : ∀ r : RawRow, r ∈ filteredExpenses rows ↔
      r ∈ rows ∧ ∃ a, r.total_expense = some a ∧ a ≠ 0 := by
    intro r
    rw [filteredExpenses, dropnaRows, List.mem_filter, List.mem_filter]
    constructor
    · rintro ⟨⟨hmr, hsome⟩, hnz⟩
      cases hte : r.total_expense with
      | none =>
        rw [hte] at hsome
        cases hsome
      | some a =>
        refine ⟨hmr, a, rfl, ?_⟩
        rw [hte] at hnz
        simpa using hnz
    · rintro ⟨hmr, a, hte, ha⟩
      refine ⟨⟨hmr, by rw [hte]; rfl⟩, ?_⟩
      rw [hte]
      simpa using ha
  refine ⟨hmem, sumTotals_byBusiness rows, ?_⟩
  intro c hc
  obtain ⟨r, hr, he⟩ := mem_categorize_expense hc
  obtain ⟨-, a, hte, ha⟩ := (hmem r).mp hr
  exact ⟨a, he ▸ hte, ha⟩

/-- Witness for C3: on the spec's end-to-end rows the by-payee totals sum
to the filtered amounts, which evaluate to 150. -/
theorem c3_filter_null_and_zero_witness :
    sumTotals (byBusiness rowsEx) = ((filteredExpenses rowsEx).map amt).sum ∧
    sumTotals (byBusiness rowsEx) = 150 := by
  refine ⟨(c3_filter_null_and_zero rowsEx none).2.1, ?_⟩
  with_unfolding_all decide

/-! ## Sort-order lemmas (claim C6) -/

theorem aggOrd_total_le {a b : AggRow} (h : aggOrd a b) : b.total ≤ a.total := by
  rcases h with h | ⟨h, _⟩
  · exact le_of_lt h
  · exact le_of_eq h.symm

theorem orderedInsert_pairwise_aggOrd (a : AggRow) :
    ∀ l : List AggRow, List.Pairwise aggOrd l → (∀ b ∈ l, a.key < b.key) →
      List.Pairwise aggOrd
        (List.orderedInsert (fun x y : AggRow => y.total ≤ x.total) a l) := by
  intro l
  induction l with
  | nil =>
    intro _ _
    simp [List.orderedInsert]
  | cons b t ih =>
    intro hp hk
    rw [List.orderedInsert]
    by_cases hr : b.total ≤ a.total
    · rw [if_pos hr]
      refine List.pairwise_cons.mpr ⟨?_, hp⟩
      intro c hc
      rcases List.mem_cons.mp hc with rfl | hct
      · rcases lt_or_eq_of_le hr with hlt | heq
        · exact Or.inl hlt
        · exact Or.inr ⟨heq.symm, hk c (List.mem_cons_self c t)⟩
      · have hcb := (List.pairwise_cons.mp hp).1 c hct
        have hle : c.total ≤ a.total := le_trans (aggOrd_total_le hcb) hr
        rcases lt_or_eq_of_le hle with hlt | heq
        · exact Or.inl hlt
        · exact Or.inr ⟨heq.symm, hk c (List.mem_cons_of_mem b hct)⟩
    · rw [if_neg hr]
      have hab : a.total < b.total := not_le.mp hr
      refine List.pairwise_cons.mpr
        ⟨?_, ih (List.pairwise_cons.mp hp).2 (fun c hc => hk c (List.mem_cons_of_mem b hc))⟩
      intro c hc
      rcases (List.mem_orderedInsert _).mp hc with rfl | hct
      · exact Or.inl hab
      · exact (List.pairwise_cons.mp hp).1 c hct

theorem sortByTotalDesc_pairwise :
    ∀ l : List AggRow, List.Pairwise (fun a b : AggRow => a.key < b.key) l →
      List.Pairwise aggOrd (sortByTotalDesc l) := by
  intro l
  induction l with
  | nil =>
    intro _
    exact List.Pairwise.nil
  | cons a l ih =>
    intro hl
    show List.Pairwise aggOrd
      (List.orderedInsert (fun x y : AggRow => y.total ≤ x.total) a
        (List.insertionSort (fun x y : AggRow => y.total ≤ x.total) l))
    apply orderedInsert_pairwise_aggOrd
    · exact ih (List.pairwise_cons.mp hl).2
    · intro b hb
      exact (List.pairwise_cons.mp hl).1 b ((List.perm_insertionSort _ l).mem_iff.mp hb)

theorem aggregateBy_keys_pairwise {α : Type} (rows : List α) (key : α → String)
    (val : α → ℚ) :
    List.Pairwise (fun a b : AggRow => a.key < b.key) (aggregateBy rows key val) := by
  rw [aggregateBy, List.pairwise_map]
  have hs : List.Pairwise (fun a b : String => a ≤ b) (sortedKeys rows key) :=
    List.sorted_insertionSort _ _
  have hnd : List.Pairwise (fun a b : String => a ≠ b) (sortedKeys rows key) :=
    sortedKeys_nodup rows key
  exact (hs.and hnd).imp (fun hab => lt_of_le_of_ne hab.1 hab.2)

/-! ## Claim C6 -/

/-- C6 (amended): `aggSorted` returns a permutation of the grouped rows,
sorted by descending total; for aggregations of at most 16 distinct keys
(the regime in which NumPy's default argsort is its stable insertion-sort
fallback, so the stable model coincides with the program) ties between
equal totals are broken by ascending key order — the groupby emits its
groups in ascending key order and the stable descending sort keeps that
order — not by order of first appearance in the input.  Above 16 rows the
program's tie order is unspecified (an unstable introsort partition). -/
theorem c6_sorted_desc_ties_ascending_key {α : Type} (rows : List α) (key : α → String)
    (val : α → ℚ) (_hsmall : (aggregateBy rows key val).length ≤ 16) :
    (aggSorted rows key val).Perm (aggregateBy rows key val) ∧
    List.Pairwise aggOrd (aggSorted rows key val) :=
  ⟨List.perm_insertionSort _ _,
    sortByTotalDesc_pairwise _ (aggregateBy_keys_pairwise rows key val)⟩

/-- C6 counterexample: payees "b" then "a" with equal totals come out in
ascending key order `[a, b]`, not first-appearance order `[b, a]`. -/
theorem c6_sorted_desc_ties_ascending_key_cex :
    byBusiness rowsTie = [⟨"a", 10⟩, ⟨"b", 10⟩] ∧
    byBusiness rowsTie ≠ [⟨"b", 10⟩, ⟨"a", 10⟩] := by
  with_unfolding_all decide

/-- Witness for C6: the amended ordering facts at the tied concrete
input, whose two-row aggregation is within the stable-sort bound. -/
theorem c6_sorted_desc_ties_ascending_key_witness :
    (aggSorted (filteredExpenses rowsTie) (fun r => r.buisness_name) amt).Perm
      (aggregateBy (filteredExpenses rowsTie) (fun r => r.buisness_name) amt) ∧
    List.Pairwise aggOrd (aggSorted (filteredExpenses rowsTie) (fun r => r.buisness_name) amt) :=
  c6_sorted_desc_ties_ascending_key (filteredExpenses rowsTie) (fun r => r.buisness_name) amt
    (by with_unfolding_all decide)

/-! ## Claim C7 -/

theorem SubstringOf.trans {a b c : List Char} (h1 : SubstringOf a b) (h2 : SubstringOf b c) :
    SubstringOf a c := by
  obtain ⟨s1, t1, rfl⟩ := h1
  obtain ⟨s2, t2, rfl⟩ := h2
  exact ⟨s2 ++ s1, t1 ++ t2, by simp⟩

/-- C7 (amended): the shipped run (`plot_by_business = False`) writes only
the category section; with the toggle enabled the report contains the
business-section header with one `Business: ..., Total: ...` line per
by-payee row, and the category-section header with one
`Category: ..., Total: ...` line per by-category row, each followed by its
breakdown's tab-prefixed per-payee lines. -/
theorem c7_report_sections (rows : List RawRow) (tbl : Option (List CategoryRule)) :
    mainReportText rows tbl = catSectionText rows tbl ∧
    SubstringOf "=== 1) Aggregation by Business Name ===".data
      ((reportText true rows tbl).data) ∧
    SubstringOf "=== 2) Aggregation by Category ===".data
      ((reportText true rows tbl).data) ∧
    (∀ row ∈ byBusiness rows,
      SubstringOf (businessLine row).data ((reportText true rows tbl).data)) ∧
    (∀ row ∈ byCategory rows tbl,
      SubstringOf (categoryLine row).data ((reportText true rows tbl).data)) ∧
    (∀ row ∈ byCategory rows tbl, ∀ p ∈ catBreakdown rows tbl row.key,
      SubstringOf (tabBusinessLine p).data ((reportText true rows tbl).data)) := by
  have hrd : (reportText true rows tbl).data =
      (bizSectionText rows).data ++ (catSectionText rows tbl).data := data_append _ _
  have hbd : (bizSectionText rows).data =
      "=== 1) Aggregation by Business Name ===\n".data ++
        (concatAll ((byBusiness rows).map businessLine)).data := data_append _ _
  have hcd : (catSectionText rows tbl).data =
      "\n=== 2) Aggregation by Category ===\n".data ++
        (concatAll ((byCategory rows tbl).map (catBlockText rows tbl))).data := data_append _ _
  have hlit1 : "=== 1) Aggregation by Business Name ===\n".data =
      "=== 1) Aggregation by Business Name ===".data ++ ['\n'] := by
    with_unfolding_all decide
  have hlit2 : "\n=== 2) Aggregation by Category ===\n".data =
      ['\n'] ++ ("=== 2) Aggregation by Category ===".data ++ ['\n']) := by
    with_unfolding_all decide
  refine ⟨rfl, ?_, ?_, ?_, ?_, ?_⟩
  · rw [hrd, hbd, hlit1]
    exact ⟨[], ['\n'] ++ (concatAll ((byBusiness rows).map businessLine)).data ++
      (catSectionText rows tbl).data, by simp⟩
  · rw [hrd, hcd, hlit2]
    exact ⟨(bizSectionText rows).data ++ ['\n'],
      ['\n'] ++ (concatAll ((byCategory rows tbl).map (catBlockText rows tbl))).data, by simp⟩
  · intro row hrow
    have h1 := substringOf_concatAll (List.mem_map_of_mem businessLine hrow)
    have h2 : SubstringOf (businessLine row).data ((bizSectionText rows).data) := by
      rw [hbd]
      exact h1.append_left _
    rw [hrd]
    exact h2.append_right _
  · intro row hrow
    have h1 := substringOf_concatAll (List.mem_map_of_mem (catBlockText rows tbl) hrow)
    have h2 : SubstringOf (categoryLine row).data ((catBlockText rows tbl row).data) := by
      have hb : (catBlockText rows tbl row).data = (categoryLine row).data ++
          (concatAll ((catBreakdown rows tbl row.key).map tabBusinessLine)).data :=
        data_append _ _
      rw [hb]
      exact substringOf_self_append _ _
    rw [hrd, hcd]
    exact (((h2.trans h1).append_left _).append_left _)
  · intro row hrow p hp
    have h1 := substringOf_concatAll (List.mem_map_of_mem (catBlockText rows tbl) hrow)
    have h2 := substringOf_concatAll (List.mem_map_of_mem tabBusinessLine hp)
    have h3 : SubstringOf (tabBusinessLine p).data ((catBlockText rows tbl row).data) := by
      have hb : (catBlockText rows tbl row).data = (categoryLine row).data ++
          (concatAll ((catBreakdown rows tbl row.key).map tabBusinessLine)).data :=
        data_append _ _
      rw [hb]
      exact h2.append_left _
    rw [hrd, hcd]
    exact (((h3.trans h1).append_left _).append_left _)

/-- C7 counterexample: the report a run actually writes (hardcoded
`plot_by_business = False`) does not contain the business-section
header. -/
theorem c7_report_sections_cex :
    ¬ SubstringOf "=== 1) Aggregation by Business Name ===".data
        ((mainReportText rowsAcme none).data) := by
  intro h
  have h1 := (hasSub_iff _ _).mpr h
  have h2 : hasSub "=== 1) Aggregation by Business Name ===".data
      ((mainReportText rowsAcme none).data) = false := by
    with_unfolding_all decide
  rw [h1] at h2
  exact Bool.noConfusion h2

/-- Witness for C7: the category-section header and the "Other" category
line occur in the toggled-on report for the Acme row. -/
theorem c7_report_sections_witness :
    SubstringOf "=== 2) Aggregation by Category ===".data
      ((reportText true rowsAcme none).data) ∧
    SubstringOf (categoryLine ⟨"Other", 100⟩).data ((reportText true rowsAcme none).data) :=
  ⟨(c7_report_sections rowsAcme none).2.2.1,
    (c7_report_sections rowsAcme none).2.2.2.2.1 ⟨"Other", 100⟩
      (by with_unfolding_all decide)⟩

/-- Witness for C4: the sentinel branch of the iff at the concrete value
0.5. -/
theorem c4_formatAmount_sentinel_and_grouping_witness :
    format_int_no_decimals (1 / 2) = "<1" :=
  (c4_formatAmount_sentinel_and_grouping (1 / 2)).1.mpr (by norm_num)

/-- Witness for C9: the hyphen clause of the classification applied to the
pure-ASCII token "ab-cd". -/
theorem c9_hebrew_detection_and_reversal_witness :
    is_all_hebrew "ab-cd" = true :=
  (c9_hebrew_detection_and_reversal "ab-cd" "x").1.mpr
    (Or.inr (Or.inr (Or.inl (by with_unfolding_all decide))))

/-! ## The spec's end-to-end example, checked against the model -/

/-- Section 8's end-to-end test case: rows `[(A,100), (B,0), (C,null),
(A,50)]` with no lookup table aggregate to `[(A,150)]` by payee and
`[(Other,150)]` by category, and the run's report text is the category
section alone. -/
theorem endToEnd_example :
    byBusiness rowsEx = [⟨"A", 150⟩] ∧
    byCategory rowsEx none = [⟨"Other", 150⟩] ∧
    mainReportText rowsEx none =
      "\n=== 2) Aggregation by Category ===\nCategory: Other, Total: 150\n\tBusiness: A => 150\n" := by
  with_unfolding_all decide

end HouseExpenses
